import Mathlib

/-!
Shallow embedding of the validator consensus coordinator
(`src/validator/src/validator_network.rs` of core-rs-albatross).

The coordinator state (`ValidatorNetworkState`), the pBFT instance state
(`PbftState`), and the public operations (`on_pbft_proposal`,
`on_blockchain_extended`, `on_finality`, `start_view_change`,
`push_prepare`, `push_commit`, the aggregation completion listeners) are
translated from the Rust source.  External collaborators (the blockchain
store and the BLS primitives) are modelled as oracle fields of a
`Blockchain` record, exactly the interface the source consumes.

Conventions of the embedding:
* `HashMap` / `BTreeMap` become association lists, `Vec` becomes `List`.
* A Rust function that can panic (`expect`, `unwrap`, `assert_eq!`)
  returns `Option`; `none` is the panic.
* `Result<(), ValidatorNetworkError>` becomes `Except ValidatorNetworkError Unit`.
* Blake2b hashing of a macro header is modelled injectively: the hash is
  a wrapper around the header (the standard collision-free idealization).
* Emitted notifier events and network sends are returned explicitly.
-/

namespace ValidatorNet

abbrev PeerId := Nat

abbrev CompressedPublicKey := Nat

abbrev PublicKey := Nat

/-- `CompressedPublicKey::uncompress` (checked BLS uncompression; modelled total). -/
def uncompress (k : CompressedPublicKey) : PublicKey := k

/-- `CompressedPublicKey::uncompress_unchecked` (unchecked fast path). -/
def uncompress_unchecked (k : CompressedPublicKey) : PublicKey := k

/-- `collections::grouped_list::Group`: a slot range paired with a validator key. -/
structure Group where
  num_slots : Nat
  public_key : CompressedPublicKey
deriving DecidableEq

/-- A slot, carrying the slot owner's (compressed) public key. -/
structure Slot where
  public_key : CompressedPublicKey
deriving DecidableEq

/-- `primitives::validators::IndexedSlot` (only the `slot` field is read). -/
structure IndexedSlot where
  slot : Slot
deriving DecidableEq

abbrev Validators := List Group

/-- `block_albatross::signed::AggregateProof`: aggregated signature plus signer set. -/
structure AggregateProof where
  signature : Nat
  signers : List Nat
deriving DecidableEq

abbrev ViewChangeProof := AggregateProof

/-- The macro block header, with the fields the coordinator reads and an
opaque remainder (`rest`) so that distinct headers can share
`(block_number, view_number)`. -/
structure MacroHeader where
  block_number : Nat
  view_number : Nat
  rest : Nat
deriving DecidableEq

/-- A Blake2b hash of a macro header, modelled injectively. -/
structure Blake2bHash where
  of_header : MacroHeader
deriving DecidableEq

/-- `header.hash::<Blake2bHash>()`. -/
def MacroHeader.hash_blake2b (h : MacroHeader) : Blake2bHash := ⟨h⟩

/-- `block_albatross::PbftProposal`: macro header plus optional view-change proof. -/
structure PbftProposal where
  header : MacroHeader
  view_change : Option ViewChangeProof
deriving DecidableEq

/-- `SignedPbftProposal`. -/
structure SignedPbftProposal where
  message : PbftProposal
  signer_idx : Nat
  signature : Nat
deriving DecidableEq

/-- `block_albatross::ViewChange`: the tag `(block_number, new_view_number)`. -/
structure ViewChange where
  block_number : Nat
  new_view_number : Nat
deriving DecidableEq

/-- `SignedViewChange`. -/
structure SignedViewChange where
  message : ViewChange
  signer_idx : Nat
  signature : Nat
deriving DecidableEq

/-- `PbftPrepareMessage`: carries the block hash being prepared. -/
structure PbftPrepareMessage where
  block_hash : Blake2bHash
deriving DecidableEq

/-- `PbftCommitMessage`. -/
structure PbftCommitMessage where
  block_hash : Blake2bHash
deriving DecidableEq

/-- `SignedPbftPrepareMessage`. -/
structure SignedPbftPrepareMessage where
  message : PbftPrepareMessage
  signer_idx : Nat
  signature : Nat
deriving DecidableEq

/-- `SignedPbftCommitMessage`. -/
structure SignedPbftCommitMessage where
  message : PbftCommitMessage
  signer_idx : Nat
  signature : Nat
deriving DecidableEq

/-- `block_albatross::PbftProof`: the prepare proof and the commit proof. -/
structure PbftProof where
  prepare : AggregateProof
  commit : AggregateProof
deriving DecidableEq

abbrev ForkProof := Nat

/-- `network_primitives::validator_info::SignedValidatorInfo`: peer address
plus BLS public key (signature checking is done by the gossip layer). -/
structure SignedValidatorInfo where
  peer_id : PeerId
  public_key : CompressedPublicKey
deriving DecidableEq

/-- `ValidatorAgent`: per-peer state (peer handle and last validator info). -/
structure ValidatorAgent where
  peer_id : PeerId
  validator_info : Option SignedValidatorInfo
deriving DecidableEq

/-- The blockchain store and BLS oracle, the external interface the
coordinator consumes (spec section 6).  `verify_block_header` and
`verify_proposal_signature` return the boolean outcome of the external
checks. -/
structure Blockchain where
  block_number : Nat
  height : Nat
  current_validators : Validators
  get_block_producer_at : Nat → Nat → Option IndexedSlot
  get_current_validator_by_idx : Nat → Option Group
  verify_block_header : MacroHeader → Option ViewChangeProof → PublicKey → Bool
  verify_proposal_signature : SignedPbftProposal → PublicKey → Bool

/-- Modelled from the spec: `primitives::policy::is_macro_block_at` is not
under `src/`; the spec places macro blocks at multiples of the epoch
length, with height 32 macro in its scenarios. -/
def is_macro_block_at (block_number : Nat) : Bool := block_number % 32 == 0

/-- Errors of `ValidatorNetworkError`. -/
inductive ValidatorNetworkError where
  | ViewChangeAlreadyExists (tag : ViewChange)
  | ProposalCollision
  | UnknownProposal
  | InvalidProposal
deriving DecidableEq

/-- The outbound notifier events (`ValidatorNetworkEvent`). -/
inductive ValidatorNetworkEvent where
  | ForkProof (proof : ForkProof)
  | ViewChangeComplete (tag : ViewChange) (proof : ViewChangeProof)
  | PbftProposal (hash : Blake2bHash) (proposal : PbftProposal)
  | PbftPrepareComplete (hash : Blake2bHash) (proposal : PbftProposal)
  | PbftComplete (hash : Blake2bHash) (proposal : PbftProposal) (proof : PbftProof)
deriving DecidableEq

/-- Gossip messages the coordinator sends (`messages::Message`, the
variants used here). -/
inductive Message where
  | ValidatorInfo (infos : List SignedValidatorInfo)
  | PbftProposal (proposal : SignedPbftProposal)
  | ForkProof (proof : ForkProof)
deriving DecidableEq

/-- The pBFT prepare+commit aggregation handle (`PbftAggregation::new`);
pushed contributions are recorded in order. -/
structure PbftAggregation where
  block_hash : Blake2bHash
  node_id : Nat
  validators : Validators
  peers : List (Nat × ValidatorAgent)
  prepare_contributions : List SignedPbftPrepareMessage
  commit_contributions : List SignedPbftCommitMessage
deriving DecidableEq

/-- `PbftAggregation::new(block_hash, node_id, validators, peers, None)`. -/
def PbftAggregation.new (block_hash : Blake2bHash) (node_id : Nat)
    (validators : Validators) (peers : List (Nat × ValidatorAgent)) : PbftAggregation :=
  { block_hash, node_id, validators, peers,
    prepare_contributions := [], commit_contributions := [] }

/-- `PbftState`: one pBFT instance. -/
structure PbftState where
  proposal : SignedPbftProposal
  block_hash : Blake2bHash
  aggregation : PbftAggregation
  prepare_proof : Option AggregateProof
deriving DecidableEq

/-- `PbftState::new`. -/
def PbftState.new (block_hash : Blake2bHash) (proposal : SignedPbftProposal)
    (node_id : Nat) (validators : Validators)
    (peers : List (Nat × ValidatorAgent)) : PbftState :=
  { proposal, block_hash,
    aggregation := PbftAggregation.new block_hash node_id validators peers,
    prepare_proof := none }

/-- `PbftState::check_verified`.  `none` is the panic of the
`expect("check_verified() called without enough micro blocks")` when the
chain cannot resolve the producer; otherwise `some` of the boolean
outcome of the remaining checks. -/
def PbftState.check_verified (self : PbftState) (chain : Blockchain) : Option Bool :=
  let block_number := self.proposal.message.header.block_number
  let view_number := self.proposal.message.header.view_number
  match chain.get_block_producer_at block_number view_number with
  | none => none
  | some islot =>
    let slot := islot.slot
    some (
      match chain.get_current_validator_by_idx self.proposal.signer_idx with
      | some validator =>
        let validator_key := validator.public_key
        if validator_key ≠ slot.public_key then
          false
        else if ¬ chain.verify_block_header self.proposal.message.header
            self.proposal.message.view_change (uncompress slot.public_key) then
          false
        else if ¬ chain.verify_proposal_signature self.proposal
            (uncompress_unchecked slot.public_key) then
          false
        else
          true
      | none => false)

/-- `ViewChangeAggregation`: tag, node id, validator set and the pushed
contributions in order. -/
structure ViewChangeAggregation where
  view_change : ViewChange
  node_id : Nat
  validators : Validators
  peers : List (Nat × ValidatorAgent)
  contributions : List SignedViewChange
deriving DecidableEq

/-- `ViewChangeAggregation::new(view_change, node_id, validators, peers, None)`. -/
def ViewChangeAggregation.new (view_change : ViewChange) (node_id : Nat)
    (validators : Validators) (peers : List (Nat × ValidatorAgent)) : ViewChangeAggregation :=
  { view_change, node_id, validators, peers, contributions := [] }

/-- `ViewChangeAggregation::push_contribution`. -/
def ViewChangeAggregation.push_contribution (self : ViewChangeAggregation)
    (signed : SignedViewChange) : ViewChangeAggregation :=
  { self with contributions := self.contributions ++ [signed] }

/-- Association-list lookup (the model of `HashMap::get` / `BTreeMap::get`). -/
def assoc_get {κ β : Type} [DecidableEq κ] : List (κ × β) → κ → Option β
  | [], _ => none
  | p :: ps, k => if p.1 = k then some p.2 else assoc_get ps k

/-- `ValidatorNetworkState`. -/
structure ValidatorNetworkState where
  agents : List (PeerId × ValidatorAgent)
  potential_validators : List (CompressedPublicKey × ValidatorAgent)
  active_validators : List (Nat × ValidatorAgent)
  view_changes : List (ViewChange × ViewChangeAggregation)
  pbft_states : List PbftState
  validator_id : Option Nat
deriving DecidableEq

/-- `pbft_states.iter().find(|state| state.block_hash == hash)`. -/
def find_pbft (l : List PbftState) (hash : Blake2bHash) : Option PbftState :=
  l.find? (fun state => decide (state.block_hash = hash))

/-- `ValidatorNetworkState::get_pbft_state`. -/
def ValidatorNetworkState.get_pbft_state (self : ValidatorNetworkState)
    (hash : Blake2bHash) : Option PbftState :=
  find_pbft self.pbft_states hash

/-- `ValidatorNetwork::broadcast_all`: send `msg` to every agent in
`potential_validators`, in table order. -/
def broadcast_all (st : ValidatorNetworkState) (msg : Message) : List (PeerId × Message) :=
  st.potential_validators.map (fun ka => (ka.2.peer_id, msg))

/-- `ValidatorNetwork::broadcast_active` forwards to `broadcast_all`
(active validators do not connect directly yet). -/
def broadcast_active (st : ValidatorNetworkState) (msg : Message) : List (PeerId × Message) :=
  broadcast_all st msg

/-- `ValidatorNetwork::broadcast_pbft_proposal`. -/
def broadcast_pbft_proposal (st : ValidatorNetworkState)
    (proposal : SignedPbftProposal) : List (PeerId × Message) :=
  broadcast_active st (Message.PbftProposal proposal)

/-- `ValidatorNetwork::MAX_VALIDATOR_INFOS`. -/
def MAX_VALIDATOR_INFOS : Nat := 64

/-- The `ValidatorInfo` payload `on_peer_joined` pushes to a joining
validator peer: the stored infos of all agents, limited to
`MAX_VALIDATOR_INFOS`, with this node's own info pushed at the end. -/
def validator_info_message (st : ValidatorNetworkState)
    (own_info : SignedValidatorInfo) : List SignedValidatorInfo :=
  ((st.agents.filterMap (fun pa => pa.2.validator_info)).take MAX_VALIDATOR_INFOS)
    ++ [own_info]

/-- `enumerate()` over a list, indices starting at `n`. -/
def enumerate_from {α : Type} (n : Nat) : List α → List (Nat × α)
  | [] => []
  | a :: rest => (n, a) :: enumerate_from (n + 1) rest

/-- The active-validator table rebuilt at finality: for each
`(id, Group(_, public_key))` of the chain's current validator groups, the
entry `(id, agent)` when `potential_validators` resolves the compressed
key (unreachable validators are logged and skipped). -/
def rebuild_active (chain : Blockchain)
    (potential_validators : List (CompressedPublicKey × ValidatorAgent)) :
    List (Nat × ValidatorAgent) :=
  (enumerate_from 0 chain.current_validators).filterMap
    (fun ig => (assoc_get potential_validators ig.2.public_key).map (fun a => (ig.1, a)))

/-- `ValidatorNetwork::on_finality`: clear `view_changes` and
`pbft_states`, set `validator_id`, rebuild `active_validators`. -/
def on_finality (chain : Blockchain) (validator_id : Option Nat)
    (st : ValidatorNetworkState) : ValidatorNetworkState :=
  { st with
    view_changes := [],
    pbft_states := [],
    validator_id := validator_id,
    active_validators := rebuild_active chain st.potential_validators }

/-- `ValidatorNetwork::start_view_change`.  `none` models the panics
(`expect("Validator ID not set")` and the `assert_eq!` on the signer
index); otherwise the updated state and the `Result`. -/
def start_view_change (chain : Blockchain) (signed_view_change : SignedViewChange)
    (st : ValidatorNetworkState) :
    Option (ValidatorNetworkState × Except ValidatorNetworkError Unit) :=
  let view_change := signed_view_change.message
  match assoc_get st.view_changes view_change with
  | some _ =>
    some (st, Except.error (ValidatorNetworkError.ViewChangeAlreadyExists view_change))
  | none =>
    match st.validator_id with
    | none => none
    | some node_id =>
      if signed_view_change.signer_idx ≠ node_id then
        none
      else
        let aggregation := ViewChangeAggregation.new view_change node_id
          chain.current_validators st.active_validators
        let aggregation := aggregation.push_contribution signed_view_change
        some ({ st with view_changes := st.view_changes ++ [(view_change, aggregation)] },
              Except.ok ())

/-- Forward a signed prepare to the aggregation of the first instance
with the given hash. -/
def add_prepare_to (hash : Blake2bHash) (msg : SignedPbftPrepareMessage) :
    List PbftState → List PbftState
  | [] => []
  | p :: ps =>
    if p.block_hash = hash then
      { p with aggregation :=
          { p.aggregation with
            prepare_contributions := p.aggregation.prepare_contributions ++ [msg] } } :: ps
    else
      p :: add_prepare_to hash msg ps

/-- Forward a signed commit to the aggregation of the first instance
with the given hash. -/
def add_commit_to (hash : Blake2bHash) (msg : SignedPbftCommitMessage) :
    List PbftState → List PbftState
  | [] => []
  | p :: ps =>
    if p.block_hash = hash then
      { p with aggregation :=
          { p.aggregation with
            commit_contributions := p.aggregation.commit_contributions ++ [msg] } } :: ps
    else
      p :: add_commit_to hash msg ps

/-- `ValidatorNetwork::push_prepare`: look the instance up by the hash in
the signed message; forward to its prepare aggregation, else
`UnknownProposal`. -/
def push_prepare (st : ValidatorNetworkState) (signed_prepare : SignedPbftPrepareMessage) :
    ValidatorNetworkState × Except ValidatorNetworkError Unit :=
  match st.get_pbft_state signed_prepare.message.block_hash with
  | some _ =>
    ({ st with pbft_states :=
        add_prepare_to signed_prepare.message.block_hash signed_prepare st.pbft_states },
     Except.ok ())
  | none => (st, Except.error ValidatorNetworkError.UnknownProposal)

/-- `ValidatorNetwork::push_commit`. -/
def push_commit (st : ValidatorNetworkState) (signed_commit : SignedPbftCommitMessage) :
    ValidatorNetworkState × Except ValidatorNetworkError Unit :=
  match st.get_pbft_state signed_commit.message.block_hash with
  | some _ =>
    ({ st with pbft_states :=
        add_commit_to signed_commit.message.block_hash signed_commit st.pbft_states },
     Except.ok ())
  | none => (st, Except.error ValidatorNetworkError.UnknownProposal)

/-- Decidable equality of `Except` results (for evaluation on concrete
inputs). -/
instance {ε α : Type} [DecidableEq ε] [DecidableEq α] : DecidableEq (Except ε α) := fun a b =>
  match a, b with
  | Except.ok x, Except.ok y =>
    if h : x = y then isTrue (by rw [h]) else
      isFalse (by intro hc; injection hc; exact h (by assumption))
  | Except.error x, Except.error y =>
    if h : x = y then isTrue (by rw [h]) else
      isFalse (by intro hc; injection hc; exact h (by assumption))
  | Except.ok _, Except.error _ => isFalse (by intro hc; cases hc)
  | Except.error _, Except.ok _ => isFalse (by intro hc; cases hc)

/-- The outcome of one `on_pbft_proposal` call: the new coordinator
state, the notifier events, the network sends, and the returned
`Result`. -/
structure ProposalOutcome where
  state : ValidatorNetworkState
  events : List ValidatorNetworkEvent
  sends : List (PeerId × Message)
  result : Except ValidatorNetworkError Unit
deriving DecidableEq

/-- `ValidatorNetwork::on_pbft_proposal`.  `none` models the panic of
`state.validator_id.expect("Not an active validator")` and the panic
inside `check_verified`. -/
def on_pbft_proposal (chain : Blockchain) (signed_proposal : SignedPbftProposal)
    (st : ValidatorNetworkState) : Option ProposalOutcome :=
  let block_hash := signed_proposal.message.header.hash_blake2b
  if (st.get_pbft_state block_hash).isSome then
    -- Proposal already known, ignore
    some ⟨st, [], [], Except.ok ()⟩
  else
    match st.validator_id with
    | none => none
    | some validator_id =>
      let pbft := PbftState.new block_hash signed_proposal validator_id
        chain.current_validators st.active_validators
      let buffered := !(is_macro_block_at (chain.height + 1))
      if !buffered then
        match pbft.check_verified chain with
        | none => none
        | some false => some ⟨st, [], [], Except.error ValidatorNetworkError.InvalidProposal⟩
        | some true =>
          let header := pbft.proposal.message.header
          match st.pbft_states.find?
              (fun other => decide (header.view_number ≤ other.proposal.message.header.view_number)) with
          | some other =>
            if header.view_number = other.proposal.message.header.view_number then
              some ⟨st, [], [], Except.error ValidatorNetworkError.ProposalCollision⟩
            else
              some ⟨st, [], [], Except.ok ()⟩
          | none =>
            let st2 := { st with pbft_states := [pbft] }
            some ⟨st2,
                  [ValidatorNetworkEvent.PbftProposal block_hash signed_proposal.message],
                  broadcast_pbft_proposal st2 signed_proposal,
                  Except.ok ()⟩
      else
        let st2 := { st with pbft_states := st.pbft_states ++ [pbft] }
        some ⟨st2, [], broadcast_pbft_proposal st2 signed_proposal, Except.ok ()⟩

/-- `pbft_states.retain(|pbft| pbft.check_verified(chain))`: `none` when
verification of some buffered instance panics. -/
def retain_verified (chain : Blockchain) : List PbftState → Option (List PbftState)
  | [] => some []
  | p :: ps =>
    match p.check_verified chain with
    | none => none
    | some true => (retain_verified chain ps).map (fun l => p :: l)
    | some false => retain_verified chain ps

/-- `Vec::dedup_by_key` over `(block_number, view_number)`: drop all but
the first of consecutive instances with the same key. -/
def dedup_by_view : List PbftState → List PbftState
  | [] => []
  | [p] => [p]
  | p :: q :: rest =>
    if (p.proposal.message.header.block_number, p.proposal.message.header.view_number)
        = (q.proposal.message.header.block_number, q.proposal.message.header.view_number) then
      dedup_by_view (p :: rest)
    else
      p :: dedup_by_view (q :: rest)
termination_by l => l.length

/-- `Iterator::max_by_key` on the view number: the last maximal element
(`max_by_key` returns the last element on ties). -/
def max_by_view : List PbftState → Option PbftState
  | [] => none
  | p :: ps =>
    match max_by_view ps with
    | none => some p
    | some m =>
      if p.proposal.message.header.view_number ≤ m.proposal.message.header.view_number then
        some m
      else
        some p

/-- `ValidatorNetwork::on_blockchain_extended`.  `none` models the panic
inside `check_verified` (and the `unwrap()` on the maximum, unreachable
for a non-empty list). -/
def on_blockchain_extended (chain : Blockchain) (st : ValidatorNetworkState) :
    Option (ValidatorNetworkState × List ValidatorNetworkEvent) :=
  if !(is_macro_block_at (chain.block_number + 1)) then
    some (st, [])
  else
    match retain_verified chain st.pbft_states with
    | none => none
    | some survivors =>
      if survivors.isEmpty then
        some ({ st with pbft_states := survivors }, [])
      else
        match max_by_view (dedup_by_view survivors) with
        | none => none
        | some best_pbft =>
          some ({ st with pbft_states := [best_pbft] },
                [ValidatorNetworkEvent.PbftProposal
                  best_pbft.proposal.message.header.hash_blake2b
                  best_pbft.proposal.message])

/-- Replace the `prepare_proof` of the first instance with the given
hash. -/
def set_prepare_proof (hash : Blake2bHash) (proof : Option AggregateProof) :
    List PbftState → List PbftState
  | [] => []
  | p :: ps =>
    if p.block_hash = hash then
      { p with prepare_proof := proof } :: ps
    else
      p :: set_prepare_proof hash proof ps

/-- The prepare-completion listener wired by `on_pbft_proposal`: locate
the instance by hash; if `prepare_proof` is absent fill it and emit
`PbftPrepareComplete`, otherwise (or with no instance) drop. -/
def on_prepare_complete (key : Blake2bHash) (best : AggregateProof)
    (st : ValidatorNetworkState) : ValidatorNetworkState × List ValidatorNetworkEvent :=
  match st.get_pbft_state key with
  | some pbft =>
    if pbft.prepare_proof = none then
      ({ st with pbft_states := set_prepare_proof key (some best) st.pbft_states },
       [ValidatorNetworkEvent.PbftPrepareComplete pbft.block_hash pbft.proposal.message])
    else
      (st, [])
  | none => (st, [])

/-- The commit-completion listener wired by `on_pbft_proposal`: locate
the instance by hash, `take()` its prepare proof (`none` models the
panic of `expect("No pBFT prepare proof")`), build the `PbftProof` and
emit `PbftComplete`; with no instance, log and drop. -/
def on_commit_complete (key : Blake2bHash) (best : AggregateProof)
    (st : ValidatorNetworkState) :
    Option (ValidatorNetworkState × List ValidatorNetworkEvent) :=
  match st.get_pbft_state key with
  | some pbft =>
    match pbft.prepare_proof with
    | none => none
    | some prepare_proof =>
      some ({ st with pbft_states := set_prepare_proof key none st.pbft_states },
            [ValidatorNetworkEvent.PbftComplete pbft.block_hash pbft.proposal.message
              { prepare := prepare_proof, commit := best }])
  | none => some (st, [])

/-- One completion firing of a Handel sub-aggregation
(`AggregationEvent::Complete { best }` of the prepare or the commit
aggregation registered for `key`). -/
inductive AggregationStep where
  | prepare_complete (key : Blake2bHash) (best : AggregateProof)
  | commit_complete (key : Blake2bHash) (best : AggregateProof)
deriving DecidableEq

/-- Run a sequence of aggregation completion firings through the two
listeners, accumulating the emitted events; `none` when a listener
panics. -/
def run_steps (st : ValidatorNetworkState) :
    List AggregationStep → Option (ValidatorNetworkState × List ValidatorNetworkEvent)
  | [] => some (st, [])
  | AggregationStep.prepare_complete key best :: rest =>
    let r := on_prepare_complete key best st
    (run_steps r.1 rest).map (fun s => (s.1, r.2 ++ s.2))
  | AggregationStep.commit_complete key best :: rest =>
    match on_commit_complete key best st with
    | none => none
    | some r => (run_steps r.1 rest).map (fun s => (s.1, r.2 ++ s.2))

/-- Does the event concern the pBFT completion of hash `h`? -/
def is_pbft_event_for (h : Blake2bHash) : ValidatorNetworkEvent → Bool
  | ValidatorNetworkEvent.PbftPrepareComplete h2 _ => decide (h2 = h)
  | ValidatorNetworkEvent.PbftComplete h2 _ _ => decide (h2 = h)
  | _ => false

/-- The sub-trace of prepare/commit completion events for hash `h`. -/
def pbft_trace (h : Blake2bHash) (evs : List ValidatorNetworkEvent) :
    List ValidatorNetworkEvent :=
  evs.filter (is_pbft_event_for h)

/-- Is the step a completion firing of the prepare aggregation for `h`? -/
def is_prepare_step_for (h : Blake2bHash) : AggregationStep → Bool
  | AggregationStep.prepare_complete key _ => decide (key = h)
  | _ => false

/-- Is the step a completion firing of the commit aggregation for `h`? -/
def is_commit_step_for (h : Blake2bHash) : AggregationStep → Bool
  | AggregationStep.commit_complete key _ => decide (key = h)
  | _ => false

/-! ### Concrete inputs used by witnesses and counterexamples -/

/-- A concrete macro header. -/
def w_header (bn vn r : Nat) : MacroHeader := ⟨bn, vn, r⟩

/-- A concrete signed proposal by validator index 0. -/
def w_proposal (bn vn r : Nat) : SignedPbftProposal := ⟨⟨w_header bn vn r, none⟩, 0, 0⟩

/-- A concrete chain at height 31 (the next block, 32, is a macro block)
whose oracles accept: the producer slot is owned by key 7, validator
index 0 resolves to key 7, header and signature verification succeed. -/
def w_chain : Blockchain :=
  { block_number := 31, height := 31, current_validators := [⟨1, 7⟩],
    get_block_producer_at := fun _ _ => some ⟨⟨7⟩⟩,
    get_current_validator_by_idx := fun i => if i = 0 then some ⟨1, 7⟩ else none,
    verify_block_header := fun _ _ _ => true,
    verify_proposal_signature := fun _ _ => true }

/-- A concrete chain whose producer lookup fails (not enough micro blocks). -/
def w_chain_no_producer : Blockchain :=
  { w_chain with get_block_producer_at := fun _ _ => none }

/-- A concrete pBFT instance for `w_proposal bn vn r`. -/
def w_instance (bn vn r : Nat) : PbftState :=
  PbftState.new (w_header bn vn r).hash_blake2b (w_proposal bn vn r) 0
    w_chain.current_validators []

/-- A concrete agent behind peer 9. -/
def w_agent : ValidatorAgent := ⟨9, none⟩

/-- A concrete coordinator state: one potential validator, empty pBFT
set, this node is validator 0. -/
def w_state : ValidatorNetworkState := ⟨[], [(7, w_agent)], [], [], [], some 0⟩

/-- `w_state` with two buffered instances at views 5 and 3 (the order
matters: the view-5 instance is scanned first). -/
def c2_state : ValidatorNetworkState :=
  { w_state with pbft_states := [w_instance 32 5 1, w_instance 32 3 2] }

/-- A state that already contains the instance of `w_proposal 32 0 0`. -/
def c7_state : ValidatorNetworkState :=
  { w_state with pbft_states := [w_instance 32 0 0] }

/-- `w_state` with a single instance at view 3. -/
def c2_single_state : ValidatorNetworkState :=
  { w_state with pbft_states := [w_instance 32 3 2] }

/-- `w_chain` two blocks before the macro boundary (height 30, so the
next block is a micro block and proposals are buffered). -/
def w_chain_mid : Blockchain :=
  { w_chain with block_number := 30, height := 30 }

/-- 64 agents, each holding a validator info. -/
def c8_agents : List (PeerId × ValidatorAgent) :=
  (List.range 64).map (fun i => (i, ⟨i, some ⟨i, i⟩⟩))

/-- A coordinator state with 64 info-carrying agents. -/
def c8_state : ValidatorNetworkState := ⟨c8_agents, [], [], [], [], none⟩

/-- A state with one view-change aggregation already tracked for tag
`(32, 1)`. -/
def c4_state : ValidatorNetworkState :=
  { w_state with view_changes :=
      [(⟨32, 1⟩, ViewChangeAggregation.new ⟨32, 1⟩ 0 w_chain.current_validators [])] }

/-- A concrete signed view change by validator 0 for tag `(32, 1)`. -/
def w_svc : SignedViewChange := ⟨⟨32, 1⟩, 0, 0⟩

/-- A state holding one instance (`w_instance 32 0 0`) for push tests
and completion-listener runs. -/
def c9_state : ValidatorNetworkState :=
  { w_state with pbft_states := [w_instance 32 0 0] }

/-- The hash of the instance held by `c9_state`. -/
def w_hash : Blake2bHash := (w_header 32 0 0).hash_blake2b

/-- A hash no instance has. -/
def w_hash_other : Blake2bHash := (w_header 33 0 0).hash_blake2b

/-! ### Helper lemmas -/

/-- An instance found by hash carries that hash. -/
theorem find_pbft_eq_hash {l : List PbftState} {h : Blake2bHash} {p : PbftState}
    (hf : find_pbft l h = some p) : p.block_hash = h := by
  have := List.find?_some hf
  simpa using this

/-- A found instance is a member of the list. -/
theorem find_pbft_mem {l : List PbftState} {h : Blake2bHash} {p : PbftState}
    (hf : find_pbft l h = some p) : p ∈ l :=
  List.mem_of_find?_eq_some hf

/-! ### C4: duplicate view change -/

/-- C4: when an aggregation for the tag already exists, `start_view_change`
returns `ViewChangeAlreadyExists` carrying that tag and leaves the whole
coordinator state unchanged. -/
theorem c4_view_change_already_exists (chain : Blockchain)
    (svc : SignedViewChange) (st : ValidatorNetworkState)
    (agg : ViewChangeAggregation)
    (hex : assoc_get st.view_changes svc.message = some agg) :
    start_view_change chain svc st =
      some (st, Except.error (ValidatorNetworkError.ViewChangeAlreadyExists svc.message)) := by
  unfold start_view_change
  simp [hex]

/-- Witness for C4 at a concrete duplicate call. -/
theorem c4_view_change_already_exists_witness :
    start_view_change w_chain w_svc c4_state =
      some (c4_state, Except.error (ValidatorNetworkError.ViewChangeAlreadyExists w_svc.message)) :=
  c4_view_change_already_exists w_chain w_svc c4_state
    (ViewChangeAggregation.new ⟨32, 1⟩ 0 w_chain.current_validators []) (by rfl)

/-! ### C10: start_view_change panic conditions -/

/-- C10: for a fresh tag, `start_view_change` panics when `validator_id`
is unset or differs from the signer index, and cannot panic when
`validator_id` equals the signer index. -/
theorem c10_start_view_change_panics (chain : Blockchain)
    (svc : SignedViewChange) (st : ValidatorNetworkState)
    (hnew : assoc_get st.view_changes svc.message = none) :
    (st.validator_id = none → start_view_change chain svc st = none)
    ∧ (∀ i, st.validator_id = some i → svc.signer_idx ≠ i →
        start_view_change chain svc st = none)
    ∧ (st.validator_id = some svc.signer_idx →
        (start_view_change chain svc st).isSome) := by
  refine ⟨fun hid => ?_, fun i hid hne => ?_, fun hid => ?_⟩ <;>
    · unfold start_view_change
      simp [hnew, hid]
      try simp [hne]

/-- Witness for C10: with `validator_id = some 0` and signer 0 the call
returns `some`. -/
theorem c10_start_view_change_panics_witness :
    (start_view_change w_chain w_svc w_state).isSome :=
  (c10_start_view_change_panics w_chain w_svc w_state (by rfl)).2.2 (by rfl)

/-! ### C9: push_prepare / push_commit -/

/-- Forwarding a prepare updates exactly the instance found by the hash. -/
theorem find_add_prepare (hash : Blake2bHash) (msg : SignedPbftPrepareMessage) :
    ∀ l : List PbftState,
      find_pbft (add_prepare_to hash msg l) hash =
        (find_pbft l hash).map (fun p =>
          { p with aggregation :=
              { p.aggregation with
                prepare_contributions := p.aggregation.prepare_contributions ++ [msg] } })
  | [] => by simp [add_prepare_to, find_pbft]
  | p :: ps => by
    by_cases hp : p.block_hash = hash
    · simp [add_prepare_to, find_pbft, hp]
    · have ih := find_add_prepare hash msg ps
      simp only [find_pbft] at ih
      simp [add_prepare_to, find_pbft, hp, List.find?_cons, ih]

/-- Forwarding a commit updates exactly the instance found by the hash. -/
theorem find_add_commit (hash : Blake2bHash) (msg : SignedPbftCommitMessage) :
    ∀ l : List PbftState,
      find_pbft (add_commit_to hash msg l) hash =
        (find_pbft l hash).map (fun p =>
          { p with aggregation :=
              { p.aggregation with
                commit_contributions := p.aggregation.commit_contributions ++ [msg] } })
  | [] => by simp [add_commit_to, find_pbft]
  | p :: ps => by
    by_cases hp : p.block_hash = hash
    · simp [add_commit_to, find_pbft, hp]
    · have ih := find_add_commit hash msg ps
      simp only [find_pbft] at ih
      simp [add_commit_to, find_pbft, hp, List.find?_cons, ih]

/-- C9: pushing a prepare (resp. commit) for a hash absent from
`pbft_states` returns `UnknownProposal` and leaves the state untouched;
for a present hash it returns `Ok` and appends the message to that
instance's prepare (resp. commit) aggregation. -/
theorem c9_push_unknown_or_forward (st : ValidatorNetworkState)
    (sp : SignedPbftPrepareMessage) (sc : SignedPbftCommitMessage) :
    (st.get_pbft_state sp.message.block_hash = none →
      push_prepare st sp = (st, Except.error ValidatorNetworkError.UnknownProposal))
    ∧ (∀ p, st.get_pbft_state sp.message.block_hash = some p →
        (push_prepare st sp).2 = Except.ok ()
        ∧ (push_prepare st sp).1.get_pbft_state sp.message.block_hash =
            some { p with aggregation :=
              { p.aggregation with
                prepare_contributions := p.aggregation.prepare_contributions ++ [sp] } })
    ∧ (st.get_pbft_state sc.message.block_hash = none →
      push_commit st sc = (st, Except.error ValidatorNetworkError.UnknownProposal))
    ∧ (∀ p, st.get_pbft_state sc.message.block_hash = some p →
        (push_commit st sc).2 = Except.ok ()
        ∧ (push_commit st sc).1.get_pbft_state sc.message.block_hash =
            some { p with aggregation :=
              { p.aggregation with
                commit_contributions := p.aggregation.commit_contributions ++ [sc] } }) := by
  refine ⟨fun habs => ?_, fun p hp => ?_, fun habs => ?_, fun p hp => ?_⟩
  · simp [push_prepare, habs]
  · have hp2 : find_pbft st.pbft_states sp.message.block_hash = some p := hp
    constructor
    · simp [push_prepare, ValidatorNetworkState.get_pbft_state, hp2]
    · simp [push_prepare, ValidatorNetworkState.get_pbft_state, hp2, find_add_prepare]
  · simp [push_commit, habs]
  · have hp2 : find_pbft st.pbft_states sc.message.block_hash = some p := hp
    constructor
    · simp [push_commit, ValidatorNetworkState.get_pbft_state, hp2]
    · simp [push_commit, ValidatorNetworkState.get_pbft_state, hp2, find_add_commit]

/-- Witness for C9: the unknown-hash push errors without mutation and the
known-hash push appends to the instance's aggregation. -/
theorem c9_push_unknown_or_forward_witness :
    push_prepare c9_state ⟨⟨w_hash_other⟩, 0, 0⟩ =
      (c9_state, Except.error ValidatorNetworkError.UnknownProposal)
    ∧ (push_prepare c9_state ⟨⟨w_hash⟩, 0, 0⟩).2 = Except.ok ()
    ∧ (push_prepare c9_state ⟨⟨w_hash⟩, 0, 0⟩).1.get_pbft_state w_hash =
        some { w_instance 32 0 0 with aggregation :=
          { (w_instance 32 0 0).aggregation with
            prepare_contributions := (w_instance 32 0 0).aggregation.prepare_contributions
              ++ [⟨⟨w_hash⟩, 0, 0⟩] } } := by
  refine ⟨?_, ?_⟩
  · exact (c9_push_unknown_or_forward c9_state ⟨⟨w_hash_other⟩, 0, 0⟩ ⟨⟨w_hash⟩, 0, 0⟩).1 (by rfl)
  · exact (c9_push_unknown_or_forward c9_state ⟨⟨w_hash⟩, 0, 0⟩ ⟨⟨w_hash⟩, 0, 0⟩).2.1
      (w_instance 32 0 0) (by rfl)

/-! ### C6: check_verified -/

/-- C6: `check_verified` panics exactly when the chain cannot resolve the
producer; otherwise it returns a boolean (never an error), which is
`true` exactly when the signer index resolves to a current validator
whose key owns the producer slot, the header verifies against the chain,
and the proposal's own signature verifies. -/
theorem c6_check_verified_cases (chain : Blockchain) (ps : PbftState) :
    (chain.get_block_producer_at ps.proposal.message.header.block_number
        ps.proposal.message.header.view_number = none →
      ps.check_verified chain = none)
    ∧ (∀ islot, chain.get_block_producer_at ps.proposal.message.header.block_number
        ps.proposal.message.header.view_number = some islot →
      (ps.check_verified chain).isSome
      ∧ (ps.check_verified chain = some true ↔
          (∃ g, chain.get_current_validator_by_idx ps.proposal.signer_idx = some g
            ∧ g.public_key = islot.slot.public_key)
          ∧ chain.verify_block_header ps.proposal.message.header
              ps.proposal.message.view_change (uncompress islot.slot.public_key) = true
          ∧ chain.verify_proposal_signature ps.proposal
              (uncompress_unchecked islot.slot.public_key) = true)) := by
  constructor
  · intro habs
    simp [PbftState.check_verified, habs]
  · intro islot hres
    constructor
    · simp [PbftState.check_verified, hres]
    · simp only [PbftState.check_verified, hres]
      cases hv : chain.get_current_validator_by_idx ps.proposal.signer_idx with
      | none => simp
      | some g =>
        by_cases hkey : g.public_key = islot.slot.public_key
        · by_cases hhd : chain.verify_block_header ps.proposal.message.header
              ps.proposal.message.view_change (uncompress islot.slot.public_key) = true
          · by_cases hsig : chain.verify_proposal_signature ps.proposal
                (uncompress_unchecked islot.slot.public_key) = true
            · simp [hkey, hhd, hsig]
            · simp [hkey, hhd, hsig]
          · simp [hkey, hhd]
        · simp [hkey]

/-- Witness for C6: on the concrete accepting chain the check returns
`some true`, and on the producer-less chain it panics. -/
theorem c6_check_verified_cases_witness :
    ((w_instance 32 0 0).check_verified w_chain).isSome
    ∧ (w_instance 32 0 0).check_verified w_chain_no_producer = none := by
  constructor
  · exact (((c6_check_verified_cases w_chain (w_instance 32 0 0)).2 ⟨⟨7⟩⟩) (by rfl)).1
  · exact (c6_check_verified_cases w_chain_no_producer (w_instance 32 0 0)).1 (by rfl)

/-! ### C5: on_finality -/

/-- Membership in `enumerate_from`. -/
theorem mem_enumerate_from {α : Type} (i : Nat) (a : α) :
    ∀ (l : List α) (n : Nat),
      ((i, a) ∈ enumerate_from n l ↔ n ≤ i ∧ l.get? (i - n) = some a) := by
  intro l
  induction l with
  | nil => intro n; simp [enumerate_from]
  | cons b rest ih =>
    intro n
    simp only [enumerate_from, List.mem_cons, ih (n + 1)]
    constructor
    · rintro (heq | ⟨hle, hget⟩)
      · rw [Prod.mk.injEq] at heq
        obtain ⟨h1, h2⟩ := heq
        subst h1
        subst h2
        simp
      · refine ⟨by omega, ?_⟩
        have hin : i - n = (i - (n + 1)) + 1 := by omega
        rw [hin]
        simpa using hget
    · rintro ⟨hle, hget⟩
      rcases Nat.eq_or_lt_of_le hle with heq | hlt
      · subst heq
        simp only [Nat.sub_self, List.get?] at hget
        left
        rw [Prod.mk.injEq]
        exact ⟨rfl, (Option.some.injEq .. ▸ hget).symm⟩
      · right
        refine ⟨by omega, ?_⟩
        have hin : i - n = (i - (n + 1)) + 1 := by omega
        rw [hin] at hget
        simpa using hget

/-- C5: `on_finality` empties `view_changes` and `pbft_states`, installs
the new validator id, and rebuilds `active_validators` so that it maps
exactly those indices of the chain's current validator groups whose
compressed public key resolves in `potential_validators`. -/
theorem c5_on_finality_resets (chain : Blockchain) (new_id : Option Nat)
    (st : ValidatorNetworkState) :
    (on_finality chain new_id st).view_changes = []
    ∧ (on_finality chain new_id st).pbft_states = []
    ∧ (on_finality chain new_id st).validator_id = new_id
    ∧ (on_finality chain new_id st).active_validators =
        rebuild_active chain st.potential_validators
    ∧ ∀ (i : Nat) (a : ValidatorAgent),
        ((i, a) ∈ (on_finality chain new_id st).active_validators ↔
          ∃ g, chain.current_validators.get? i = some g
            ∧ assoc_get st.potential_validators g.public_key = some a) := by
  refine ⟨rfl, rfl, rfl, rfl, fun i a => ?_⟩
  simp only [on_finality, rebuild_active, List.mem_filterMap]
  constructor
  · rintro ⟨⟨j, g⟩, hmem, hf⟩
    simp only [Option.map_eq_some'] at hf
    obtain ⟨a0, hget, heq⟩ := hf
    rw [Prod.mk.injEq] at heq
    obtain ⟨h1, h2⟩ := heq
    subst h1
    subst h2
    have hj := (mem_enumerate_from j g chain.current_validators 0).1 hmem
    exact ⟨g, by simpa using hj.2, hget⟩
  · rintro ⟨g, hget, ha⟩
    refine ⟨(i, g), ?_, ?_⟩
    · exact (mem_enumerate_from i g chain.current_validators 0).2
        ⟨Nat.zero_le _, by simpa using hget⟩
    · simp [ha]

/-- Witness for C5 at a concrete state holding pBFT instances and a
view-change aggregation. -/
theorem c5_on_finality_resets_witness :
    (on_finality w_chain (some 2) c4_state).view_changes = []
    ∧ (on_finality w_chain (some 2) c4_state).pbft_states = []
    ∧ (on_finality w_chain (some 2) c4_state).validator_id = some 2
    ∧ ((0, w_agent) ∈ (on_finality w_chain (some 2) c4_state).active_validators ↔
        ∃ g, w_chain.current_validators.get? 0 = some g
          ∧ assoc_get c4_state.potential_validators g.public_key = some w_agent) := by
  obtain ⟨h1, h2, h3, _, h5⟩ := c5_on_finality_resets w_chain (some 2) c4_state
  exact ⟨h1, h2, h3, h5 0 w_agent⟩

/-! ### C8: validator-info snapshot size -/

/-- C8 counterexample: with 64 info-carrying agents the pushed
`ValidatorInfo` message holds 65 entries, exceeding the claimed total
cap of 64. -/
theorem c8_counterexample_snapshot_65 :
    ¬ ((validator_info_message c8_state ⟨100, 100⟩).length ≤ 64) := by decide

/-- C8 (amended): the snapshot part of the pushed `ValidatorInfo` message
is capped at `MAX_VALIDATOR_INFOS = 64` known infos, so the whole message
(own info included) holds at most 65 entries. -/
theorem c8_snapshot_cap (st : ValidatorNetworkState) (own : SignedValidatorInfo) :
    ((st.agents.filterMap (fun pa => pa.2.validator_info)).take MAX_VALIDATOR_INFOS).length
      ≤ MAX_VALIDATOR_INFOS
    ∧ (validator_info_message st own).length ≤ MAX_VALIDATOR_INFOS + 1 := by
  constructor
  · simp [List.length_take]
  · simp only [validator_info_message, List.length_append, List.length_take,
      List.length_cons, List.length_nil]
    omega

/-! ### C1: on_blockchain_extended selects the max-view survivor -/

/-- Instances retained by `retain_verified` come from the input list and
pass `check_verified`. -/
theorem retain_verified_spec (chain : Blockchain) :
    ∀ {l l2 : List PbftState}, retain_verified chain l = some l2 →
      ∀ p ∈ l2, p ∈ l ∧ p.check_verified chain = some true := by
  intro l
  induction l with
  | nil =>
    intro l2 hr p hp
    simp [retain_verified] at hr
    subst hr
    simp at hp
  | cons q qs ih =>
    intro l2 hr p hp
    simp only [retain_verified] at hr
    cases hc : q.check_verified chain with
    | none => rw [hc] at hr; simp at hr
    | some b =>
      rw [hc] at hr
      cases b with
      | true =>
        simp only [Option.map_eq_some'] at hr
        obtain ⟨l3, hl3, hl2⟩ := hr
        subst hl2
        rcases List.mem_cons.1 hp with h | h
        · subst h
          exact ⟨List.mem_cons_self .., hc⟩
        · obtain ⟨hm, hv⟩ := ih hl3 p h
          exact ⟨List.mem_cons_of_mem _ hm, hv⟩
      | false =>
        obtain ⟨hm, hv⟩ := ih hr p hp
        exact ⟨List.mem_cons_of_mem _ hm, hv⟩

/-- Deduplication keeps only elements of the input list. -/
theorem dedup_by_view_subset (p : PbftState) : ∀ l, p ∈ dedup_by_view l → p ∈ l := by
  intro l
  induction l using dedup_by_view.induct with
  | case1 => simp [dedup_by_view]
  | case2 q => simp [dedup_by_view]
  | case3 a b rest hkey ih =>
    rw [dedup_by_view, if_pos hkey]
    intro hm
    rcases List.mem_cons.1 (ih hm) with h | h
    · simp [h]
    · simp [List.mem_cons, h]
  | case4 a b rest hkey ih =>
    rw [dedup_by_view, if_neg hkey]
    intro hm
    rcases List.mem_cons.1 hm with h | h
    · simp [h]
    · simp only [List.mem_cons] at ih ⊢
      rcases ih h with h2 | h2
      · exact Or.inr (Or.inl h2)
      · exact Or.inr (Or.inr h2)

/-- Every input element has a representative with the same view number
among the deduplicated elements. -/
theorem dedup_by_view_cover : ∀ l : List PbftState, ∀ p ∈ l, ∃ q ∈ dedup_by_view l,
    q.proposal.message.header.view_number = p.proposal.message.header.view_number := by
  intro l
  induction l using dedup_by_view.induct with
  | case1 => simp
  | case2 q => intro p hp; simp at hp; subst hp; exact ⟨p, by simp [dedup_by_view]⟩
  | case3 a b rest hkey ih =>
    intro p hp
    rw [dedup_by_view, if_pos hkey]
    have hview : a.proposal.message.header.view_number = b.proposal.message.header.view_number := by
      have := congrArg Prod.snd hkey
      simpa using this
    rcases List.mem_cons.1 hp with h | h
    · subst h
      exact ih p (List.mem_cons_self ..)
    · rcases List.mem_cons.1 h with h2 | h2
      · subst h2
        obtain ⟨q, hq, hqv⟩ := ih a (List.mem_cons_self ..)
        exact ⟨q, hq, by rw [hqv, hview]⟩
      · exact ih p (List.mem_cons_of_mem _ h2)
  | case4 a b rest hkey ih =>
    intro p hp
    rw [dedup_by_view, if_neg hkey]
    rcases List.mem_cons.1 hp with h | h
    · subst h
      exact ⟨p, List.mem_cons_self .., rfl⟩
    · obtain ⟨q, hq, hqv⟩ := ih p h
      exact ⟨q, List.mem_cons_of_mem _ hq, hqv⟩

/-- Deduplication of a non-empty list is non-empty. -/
theorem dedup_by_view_ne_nil : ∀ l : List PbftState, l ≠ [] → dedup_by_view l ≠ [] := by
  intro l
  induction l using dedup_by_view.induct with
  | case1 => simp
  | case2 q => simp [dedup_by_view]
  | case3 a b rest hkey ih =>
    intro _
    rw [dedup_by_view, if_pos hkey]
    exact ih (by simp)
  | case4 a b rest hkey ih =>
    intro _
    rw [dedup_by_view, if_neg hkey]
    simp

/-- A non-empty list has a maximum. -/
theorem max_by_view_isSome : ∀ l : List PbftState, l ≠ [] → (max_by_view l).isSome = true := by
  intro l hl
  cases l with
  | nil => exact absurd rfl hl
  | cons p ps =>
    simp only [max_by_view]
    split
    · rfl
    · split
      · rfl
      · rfl

/-- The maximum is an element of the list. -/
theorem max_by_view_mem : ∀ (l : List PbftState) (m : PbftState),
    max_by_view l = some m → m ∈ l := by
  intro l
  induction l with
  | nil => intro m hm; simp [max_by_view] at hm
  | cons p ps ih =>
    intro m hm
    simp only [max_by_view] at hm
    split at hm
    · simp at hm
      rw [← hm]
      exact List.mem_cons_self ..
    · split at hm
      next m2 heq hle =>
        simp at hm
        rw [← hm]
        exact List.mem_cons_of_mem _ (ih m2 heq)
      next m2 heq hle =>
        simp at hm
        rw [← hm]
        exact List.mem_cons_self ..

/-- The maximum dominates every element's view number. -/
theorem max_by_view_ge : ∀ (l : List PbftState) (m : PbftState),
    max_by_view l = some m → ∀ p ∈ l,
      p.proposal.message.header.view_number ≤ m.proposal.message.header.view_number := by
  intro l
  induction l with
  | nil => intro m hm; simp [max_by_view] at hm
  | cons q qs ih =>
    intro m hm p hp
    simp only [max_by_view] at hm
    split at hm
    · next heq =>
        simp at hm
        rw [← hm]
        rcases List.mem_cons.1 hp with h | h
        · subst h; exact Nat.le_refl _
        · cases qs with
          | nil => simp at h
          | cons r rs =>
            have hs := max_by_view_isSome (r :: rs) (by simp)
            rw [heq] at hs
            cases hs
    · split at hm
      next m2 heq hle =>
        simp at hm
        rw [← hm]
        rcases List.mem_cons.1 hp with h | h
        · subst h; exact hle
        · exact ih m2 heq p h
      next m2 heq hle =>
        simp at hm
        rw [← hm]
        rcases List.mem_cons.1 hp with h | h
        · subst h; exact Nat.le_refl _
        · exact Nat.le_trans (ih m2 heq p h) (Nat.le_of_not_le hle)

/-- C1: when `on_blockchain_extended` crosses the macro boundary and at
least one buffered instance passes `check_verified`, afterwards
`pbft_states` holds exactly one instance, that instance is a verified
survivor with the maximum view number among them, and
`PbftProposal(winner.hash, winner.proposal)` is emitted. -/
theorem c1_extended_selects_max_view (chain : Blockchain) (st : ValidatorNetworkState)
    (survivors : List PbftState)
    (hmac : is_macro_block_at (chain.block_number + 1) = true)
    (hret : retain_verified chain st.pbft_states = some survivors)
    (hne : survivors ≠ [])
    (hinv : ∀ p ∈ st.pbft_states, p.block_hash = p.proposal.message.header.hash_blake2b) :
    ∃ best,
      on_blockchain_extended chain st =
        some ({ st with pbft_states := [best] },
              [ValidatorNetworkEvent.PbftProposal best.block_hash best.proposal.message])
      ∧ best ∈ survivors
      ∧ best.check_verified chain = some true
      ∧ ∀ p ∈ survivors,
          p.proposal.message.header.view_number ≤ best.proposal.message.header.view_number := by
  have hdne := dedup_by_view_ne_nil survivors hne
  have hms := max_by_view_isSome (dedup_by_view survivors) hdne
  obtain ⟨best, hbest⟩ := Option.isSome_iff_exists.1 hms
  have hmemd : best ∈ dedup_by_view survivors := max_by_view_mem _ _ hbest
  have hmems : best ∈ survivors := dedup_by_view_subset best survivors hmemd
  have hmemst : best ∈ st.pbft_states := (retain_verified_spec chain hret best hmems).1
  have hver : best.check_verified chain = some true :=
    (retain_verified_spec chain hret best hmems).2
  have hbh : best.block_hash = best.proposal.message.header.hash_blake2b := hinv best hmemst
  have hie : survivors.isEmpty = false := by
    cases survivors with
    | nil => exact absurd rfl hne
    | cons a b => rfl
  refine ⟨best, ?_, hmems, hver, ?_⟩
  · simp only [on_blockchain_extended, hmac, hret, hie, hbest, Bool.not_true,
      Bool.false_eq_true, if_false]
    rw [hbh]
  · intro p hp
    obtain ⟨q, hq, hqv⟩ := dedup_by_view_cover survivors p hp
    have := max_by_view_ge _ _ hbest q hq
    rw [hqv] at this
    exact this

/-- Witness for C1: two buffered verified instances at views 5 and 3;
the view-5 instance wins and is announced. -/
theorem c1_extended_selects_max_view_witness :
    ∃ best,
      on_blockchain_extended w_chain c2_state =
        some ({ c2_state with pbft_states := [best] },
              [ValidatorNetworkEvent.PbftProposal best.block_hash best.proposal.message])
      ∧ best ∈ c2_state.pbft_states
      ∧ best.check_verified w_chain = some true
      ∧ ∀ p ∈ c2_state.pbft_states,
          p.proposal.message.header.view_number ≤ best.proposal.message.header.view_number :=
  c1_extended_selects_max_view w_chain c2_state c2_state.pbft_states
    (by decide) (by decide) (by decide) (by decide)

/-! ### C2: the non-buffered acceptance policy -/

/-- C2 counterexample: at a state holding instances at views 5 and 3 (in
that order), a fresh verified proposal at view 3 in the non-buffered
path returns `Ok` and leaves the set unchanged, although an instance
with the same view number is present — the claim demands
`ProposalCollision` there.  The scan stops at the first instance with a
view number at least the proposal's, here the view-5 instance. -/
theorem c2_counterexample_equal_view_no_collision :
    c2_state.get_pbft_state (w_proposal 32 3 9).message.header.hash_blake2b = none
    ∧ is_macro_block_at (w_chain.height + 1) = true
    ∧ (PbftState.new (w_proposal 32 3 9).message.header.hash_blake2b (w_proposal 32 3 9) 0
        w_chain.current_validators c2_state.active_validators).check_verified w_chain = some true
    ∧ (∃ q ∈ c2_state.pbft_states,
        q.proposal.message.header.view_number = (w_proposal 32 3 9).message.header.view_number)
    ∧ on_pbft_proposal w_chain (w_proposal 32 3 9) c2_state =
        some ⟨c2_state, [], [], Except.ok ()⟩ := by
  refine ⟨by decide, by decide, by decide, ⟨w_instance 32 3 2, by decide, by decide⟩, by decide⟩

/-- C2 (amended): in the non-buffered path, for a fresh verified
proposal the *first* instance in set order whose view number is at least
the proposal's decides: an equal view yields `ProposalCollision` with
the set unchanged, a strictly greater view yields `Ok` with the set
unchanged, and if no instance has a view at least the proposal's the
set is replaced by the new instance alone, which is announced and
broadcast.  (When the set holds at most one instance this coincides
with the original claim.) -/
theorem c2_nonbuffered_policy (chain : Blockchain) (sp : SignedPbftProposal)
    (st : ValidatorNetworkState) (vid : Nat)
    (hnew : st.get_pbft_state sp.message.header.hash_blake2b = none)
    (hvid : st.validator_id = some vid)
    (hmac : is_macro_block_at (chain.height + 1) = true)
    (hver : (PbftState.new sp.message.header.hash_blake2b sp vid
        chain.current_validators st.active_validators).check_verified chain = some true) :
    (∀ q, st.pbft_states.find? (fun other =>
          decide (sp.message.header.view_number ≤ other.proposal.message.header.view_number))
        = some q →
      (sp.message.header.view_number = q.proposal.message.header.view_number →
        on_pbft_proposal chain sp st =
          some ⟨st, [], [], Except.error ValidatorNetworkError.ProposalCollision⟩)
      ∧ (sp.message.header.view_number ≠ q.proposal.message.header.view_number →
        on_pbft_proposal chain sp st = some ⟨st, [], [], Except.ok ()⟩))
    ∧ (st.pbft_states.find? (fun other =>
          decide (sp.message.header.view_number ≤ other.proposal.message.header.view_number))
        = none →
      on_pbft_proposal chain sp st =
        some ⟨{ st with pbft_states := [PbftState.new sp.message.header.hash_blake2b sp vid
                  chain.current_validators st.active_validators] },
              [ValidatorNetworkEvent.PbftProposal sp.message.header.hash_blake2b sp.message],
              broadcast_pbft_proposal
                { st with pbft_states := [PbftState.new sp.message.header.hash_blake2b sp vid
                    chain.current_validators st.active_validators] } sp,
              Except.ok ()⟩) := by
  simp only [PbftState.new] at hver
  constructor
  · intro q hq
    constructor
    · intro heq
      simp [on_pbft_proposal, PbftState.new, hnew, hvid, hmac, hver, hq, if_pos heq]
    · intro hne
      simp [on_pbft_proposal, PbftState.new, hnew, hvid, hmac, hver, hq, if_neg hne]
  · intro hnone
    simp [on_pbft_proposal, PbftState.new, hnew, hvid, hmac, hver, hnone]

/-- Witness for C2 (amended): the collision branch at a single-instance
state. -/
theorem c2_nonbuffered_policy_witness :
    on_pbft_proposal w_chain (w_proposal 32 3 9) c2_single_state =
      some ⟨c2_single_state, [], [], Except.error ValidatorNetworkError.ProposalCollision⟩ :=
  (((c2_nonbuffered_policy w_chain (w_proposal 32 3 9) c2_single_state 0
      (by decide) (by decide) (by decide) (by decide)).1
    (w_instance 32 3 2) (by decide)).1 (by decide))

/-! ### C7: re-broadcast of handled proposals -/

/-- C7 counterexample: a call whose hash is already present returns `Ok`
with no sends at all, although a known validator is connected — the
claim demands a re-broadcast on every call. -/
theorem c7_counterexample_known_hash_no_broadcast :
    c7_state.get_pbft_state (w_proposal 32 0 0).message.header.hash_blake2b
      = some (w_instance 32 0 0)
    ∧ broadcast_pbft_proposal c7_state (w_proposal 32 0 0) ≠ []
    ∧ on_pbft_proposal w_chain (w_proposal 32 0 0) c7_state =
        some ⟨c7_state, [], [], Except.ok ()⟩ := by
  refine ⟨by decide, by decide, by decide⟩

/-- C7 (amended): the signed proposal is re-broadcast to every agent in
`potential_validators` exactly on the calls that install the new
instance — every buffered call with a fresh hash, and every
non-buffered call with a fresh hash that passes verification and finds
no instance of an equal or greater view.  Early returns (known hash,
failed verification, collision, an instance with a greater view) send
nothing. -/
theorem c7_broadcast_on_install (chain : Blockchain) (sp : SignedPbftProposal)
    (st : ValidatorNetworkState) (vid : Nat)
    (hnew : st.get_pbft_state sp.message.header.hash_blake2b = none)
    (hvid : st.validator_id = some vid) :
    (is_macro_block_at (chain.height + 1) = false →
      ∃ r, on_pbft_proposal chain sp st = some r
        ∧ r.sends = st.potential_validators.map
            (fun ka => (ka.2.peer_id, Message.PbftProposal sp)))
    ∧ (is_macro_block_at (chain.height + 1) = true →
      (PbftState.new sp.message.header.hash_blake2b sp vid
          chain.current_validators st.active_validators).check_verified chain = some true →
      st.pbft_states.find? (fun other =>
          decide (sp.message.header.view_number ≤ other.proposal.message.header.view_number))
        = none →
      ∃ r, on_pbft_proposal chain sp st = some r
        ∧ r.sends = st.potential_validators.map
            (fun ka => (ka.2.peer_id, Message.PbftProposal sp))) := by
  constructor
  · intro hbuf
    refine ⟨⟨{ st with pbft_states := st.pbft_states ++
        [PbftState.new sp.message.header.hash_blake2b sp vid chain.current_validators
          st.active_validators] },
      [],
      broadcast_pbft_proposal { st with pbft_states := st.pbft_states ++
        [PbftState.new sp.message.header.hash_blake2b sp vid chain.current_validators
          st.active_validators] } sp,
      Except.ok ()⟩, ?_, ?_⟩
    · simp [on_pbft_proposal, PbftState.new, hnew, hvid, hbuf]
    · simp [broadcast_pbft_proposal, broadcast_active, broadcast_all]
  · intro hmac hver hnone
    simp only [PbftState.new] at hver
    refine ⟨⟨{ st with pbft_states :=
        [PbftState.new sp.message.header.hash_blake2b sp vid chain.current_validators
          st.active_validators] },
      [ValidatorNetworkEvent.PbftProposal sp.message.header.hash_blake2b sp.message],
      broadcast_pbft_proposal { st with pbft_states :=
        [PbftState.new sp.message.header.hash_blake2b sp vid chain.current_validators
          st.active_validators] } sp,
      Except.ok ()⟩, ?_, ?_⟩
    · simp [on_pbft_proposal, PbftState.new, hnew, hvid, hmac, hver, hnone]
    · simp [broadcast_pbft_proposal, broadcast_active, broadcast_all]

/-- Witness for C7 (amended): a buffered call at height 30 broadcasts to
the one known validator. -/
theorem c7_broadcast_on_install_witness :
    ∃ r, on_pbft_proposal w_chain_mid (w_proposal 32 0 0) w_state = some r
      ∧ r.sends = w_state.potential_validators.map
          (fun ka => (ka.2.peer_id, Message.PbftProposal (w_proposal 32 0 0))) :=
  (c7_broadcast_on_install w_chain_mid (w_proposal 32 0 0) w_state 0
    (by decide) (by decide)).1 (by decide)

/-! ### C3: the prepare/commit completion trace -/

/-- Setting the prepare proof for another hash does not change what is
found for `h`. -/
theorem find_set_ne {k h : Blake2bHash} (hne : k ≠ h)
    (pf : Option AggregateProof) :
    ∀ l : List PbftState, find_pbft (set_prepare_proof k pf l) h = find_pbft l h := by
  intro l
  induction l with
  | nil => simp [set_prepare_proof, find_pbft]
  | cons p ps ih =>
    by_cases hp : p.block_hash = k
    · have hph : ¬ (p.block_hash = h) := by rw [hp]; exact hne
      simp [set_prepare_proof, find_pbft, hp, hph, hne, List.find?_cons]
    · simp only [set_prepare_proof, if_neg hp]
      by_cases hph : p.block_hash = h
      · simp [find_pbft, List.find?_cons, hph]
      · simp only [find_pbft, List.find?_cons] at ih ⊢
        simp [hph, ih]

/-- Setting the prepare proof for `h` rewrites exactly the instance
found for `h`. -/
theorem find_set_eq (h : Blake2bHash) (pf : Option AggregateProof) :
    ∀ l : List PbftState,
      find_pbft (set_prepare_proof h pf l) h =
        (find_pbft l h).map (fun p => { p with prepare_proof := pf }) := by
  intro l
  induction l with
  | nil => simp [set_prepare_proof, find_pbft]
  | cons p ps ih =>
    by_cases hp : p.block_hash = h
    · simp [set_prepare_proof, find_pbft, hp]
    · simp only [set_prepare_proof, if_neg hp]
      simp only [find_pbft, List.find?_cons] at ih ⊢
      simp [hp, ih]

/-- A prepare completion for another hash leaves the `h`-instance
untouched and emits no `h`-event. -/
theorem prep_step_other {k h : Blake2bHash} (hne : k ≠ h)
    (best : AggregateProof) (st : ValidatorNetworkState) :
    find_pbft (on_prepare_complete k best st).1.pbft_states h = find_pbft st.pbft_states h
    ∧ pbft_trace h (on_prepare_complete k best st).2 = [] := by
  unfold on_prepare_complete
  cases hf : st.get_pbft_state k with
  | none => simp [pbft_trace]
  | some p =>
    have hbh : p.block_hash = k := find_pbft_eq_hash hf
    by_cases hpf : p.prepare_proof = none
    · simp only [hpf, if_pos rfl]
      refine ⟨find_set_ne hne _ _, ?_⟩
      simp [pbft_trace, is_pbft_event_for, hbh, hne]
    · simp [hpf, pbft_trace]

/-- A commit completion for another hash leaves the `h`-instance
untouched and emits no `h`-event. -/
theorem com_step_other {k h : Blake2bHash} (hne : k ≠ h)
    (best : AggregateProof) (st : ValidatorNetworkState)
    (r : ValidatorNetworkState × List ValidatorNetworkEvent)
    (hr : on_commit_complete k best st = some r) :
    find_pbft r.1.pbft_states h = find_pbft st.pbft_states h
    ∧ pbft_trace h r.2 = [] := by
  cases hf : st.get_pbft_state k with
  | none =>
    have hval : on_commit_complete k best st = some (st, []) := by
      simp [on_commit_complete, hf]
    rw [hval] at hr
    obtain rfl := Option.some.inj hr
    simp [pbft_trace]
  | some p =>
    have hbh : p.block_hash = k := find_pbft_eq_hash hf
    cases hpf : p.prepare_proof with
    | none =>
      have hval : on_commit_complete k best st = none := by
        simp [on_commit_complete, hf, hpf]
      rw [hval] at hr
      cases hr
    | some pf0 =>
      have hval : on_commit_complete k best st =
          some ({ st with pbft_states := set_prepare_proof k none st.pbft_states },
                [ValidatorNetworkEvent.PbftComplete p.block_hash p.proposal.message
                  { prepare := pf0, commit := best }]) := by
        simp [on_commit_complete, hf, hpf]
      rw [hval] at hr
      obtain rfl := Option.some.inj hr
      refine ⟨find_set_ne hne _ _, ?_⟩
      simp [pbft_trace, is_pbft_event_for, hbh, hne]

/-- A commit completion for a tracked instance without a prepare proof
panics. -/
theorem com_step_panics {h : Blake2bHash} {st : ValidatorNetworkState} {p : PbftState}
    (best : AggregateProof)
    (hf : st.get_pbft_state h = some p) (hpf : p.prepare_proof = none) :
    on_commit_complete h best st = none := by
  simp [on_commit_complete, hf, hpf]

/-- The trace of an event concatenation. -/
theorem pbft_trace_append (h : Blake2bHash) (a b : List ValidatorNetworkEvent) :
    pbft_trace h (a ++ b) = pbft_trace h a ++ pbft_trace h b :=
  List.filter_append ..

/-- Unfolding `run_steps` over a prepare completion. -/
theorem run_steps_cons_prep (k : Blake2bHash) (best : AggregateProof)
    (rest : List AggregationStep) (st : ValidatorNetworkState) :
    run_steps st (AggregationStep.prepare_complete k best :: rest) =
      (run_steps (on_prepare_complete k best st).1 rest).map
        (fun s => (s.1, (on_prepare_complete k best st).2 ++ s.2)) := rfl

/-- Unfolding `run_steps` over a non-panicking commit completion. -/
theorem run_steps_cons_com_some {k : Blake2bHash} {best : AggregateProof}
    {st : ValidatorNetworkState} {r : ValidatorNetworkState × List ValidatorNetworkEvent}
    (rest : List AggregationStep)
    (hcc : on_commit_complete k best st = some r) :
    run_steps st (AggregationStep.commit_complete k best :: rest) =
      (run_steps r.1 rest).map (fun s => (s.1, r.2 ++ s.2)) := by
  simp [run_steps, hcc]

/-- Unfolding `run_steps` over a panicking commit completion. -/
theorem run_steps_cons_com_none {k : Blake2bHash} {best : AggregateProof}
    {st : ValidatorNetworkState} (rest : List AggregationStep)
    (hcc : on_commit_complete k best st = none) :
    run_steps st (AggregationStep.commit_complete k best :: rest) = none := by
  simp [run_steps, hcc]

/-- Decomposing a successful mapped run. -/
theorem run_map_eq {o : Option (ValidatorNetworkState × List ValidatorNetworkEvent)}
    {pre : List ValidatorNetworkEvent} {st2 : ValidatorNetworkState}
    {evs : List ValidatorNetworkEvent}
    (hm : o.map (fun s => (s.1, pre ++ s.2)) = some (st2, evs)) :
    ∃ s, o = some s ∧ s.1 = st2 ∧ evs = pre ++ s.2 := by
  cases o with
  | none => simp at hm
  | some s =>
    simp only [Option.map_some'] at hm
    have he := Option.some.inj hm
    exact ⟨s, rfl, congrArg Prod.fst he, (congrArg Prod.snd he).symm⟩

/-- With no prepare completion for `h` and no prepare proof stored for
`h`, a successful run emits no `h`-event and keeps `h` proof-less. -/
theorem run_no_prep_no_proof (h : Blake2bHash) :
    ∀ (steps : List AggregationStep) (st st2 : ValidatorNetworkState)
      (evs : List ValidatorNetworkEvent),
      steps.countP (is_prepare_step_for h) = 0 →
      (∀ p, find_pbft st.pbft_states h = some p → p.prepare_proof = none) →
      run_steps st steps = some (st2, evs) →
      pbft_trace h evs = []
      ∧ (∀ p, find_pbft st2.pbft_states h = some p → p.prepare_proof = none) := by
  intro steps
  induction steps with
  | nil =>
    intro st st2 evs _ hnp hrun
    simp only [run_steps] at hrun
    have he := Option.some.inj hrun
    obtain rfl : st = st2 := congrArg Prod.fst he
    obtain rfl : ([] : List ValidatorNetworkEvent) = evs := congrArg Prod.snd he
    exact ⟨rfl, hnp⟩
  | cons s rest ih =>
    intro st st2 evs hcount hnp hrun
    cases s with
    | prepare_complete k best =>
      have hkne : k ≠ h := by
        intro heq
        subst heq
        simp [List.countP_cons, is_prepare_step_for] at hcount
      have hstep : is_prepare_step_for h (AggregationStep.prepare_complete k best) = false := by
        simp [is_prepare_step_for, hkne]
      have hcr : rest.countP (is_prepare_step_for h) = 0 := by
        rw [List.countP_cons, hstep] at hcount
        simpa using hcount
      rw [run_steps_cons_prep] at hrun
      obtain ⟨s2, hrest, hst2, hevs⟩ := run_map_eq hrun
      obtain ⟨hfind, htr⟩ := prep_step_other hkne best st
      have ihr := ih (on_prepare_complete k best st).1 s2.1 s2.2 hcr
        (by rw [hfind]; exact hnp) hrest
      constructor
      · rw [hevs, pbft_trace_append, htr, ihr.1]
        rfl
      · rw [← hst2]
        exact ihr.2
    | commit_complete k best =>
      have hcr : rest.countP (is_prepare_step_for h) = 0 := by
        rw [List.countP_cons] at hcount
        simpa [is_prepare_step_for] using hcount
      by_cases hk : k = h
      · subst hk
        cases hf : find_pbft st.pbft_states k with
        | some p =>
          have hpn := hnp p hf
          have hcc := com_step_panics best (show st.get_pbft_state k = some p from hf) hpn
          rw [run_steps_cons_com_none rest hcc] at hrun
          cases hrun
        | none =>
          have hcc : on_commit_complete k best st = some (st, []) := by
            simp [on_commit_complete, ValidatorNetworkState.get_pbft_state, hf]
          rw [run_steps_cons_com_some rest hcc] at hrun
          obtain ⟨s2, hrest, hst2, hevs⟩ := run_map_eq hrun
          have ihr := ih st s2.1 s2.2 hcr hnp hrest
          constructor
          · rw [hevs, pbft_trace_append, ihr.1]
            rfl
          · rw [← hst2]
            exact ihr.2
      · cases hcc : on_commit_complete k best st with
        | none =>
          rw [run_steps_cons_com_none rest hcc] at hrun
          cases hrun
        | some r =>
          rw [run_steps_cons_com_some rest hcc] at hrun
          obtain ⟨s2, hrest, hst2, hevs⟩ := run_map_eq hrun
          obtain ⟨hfind, htr⟩ := com_step_other hk best st r hcc
          have ihr := ih r.1 s2.1 s2.2 hcr (by rw [hfind]; exact hnp) hrest
          constructor
          · rw [hevs, pbft_trace_append, htr, ihr.1]
            rfl
          · rw [← hst2]
            exact ihr.2

/-- With the prepare proof already stored for `h`, no prepare completion
for `h` and at most one commit completion for `h`, a successful run
emits for `h` either nothing or exactly one `PbftComplete`. -/
theorem run_with_proof (h : Blake2bHash) :
    ∀ (steps : List AggregationStep) (st st2 : ValidatorNetworkState)
      (evs : List ValidatorNetworkEvent) (p : PbftState) (pf : AggregateProof),
      find_pbft st.pbft_states h = some p →
      p.prepare_proof = some pf →
      steps.countP (is_prepare_step_for h) = 0 →
      steps.countP (is_commit_step_for h) ≤ 1 →
      run_steps st steps = some (st2, evs) →
      pbft_trace h evs = []
      ∨ ∃ prop proof2, pbft_trace h evs =
          [ValidatorNetworkEvent.PbftComplete h prop proof2] := by
  intro steps
  induction steps with
  | nil =>
    intro st st2 evs p pf hf hpf hcp hcc hrun
    simp only [run_steps] at hrun
    have he := Option.some.inj hrun
    obtain rfl : ([] : List ValidatorNetworkEvent) = evs := congrArg Prod.snd he
    exact Or.inl rfl
  | cons s rest ih =>
    intro st st2 evs p pf hf hpf hcp hcc hrun
    cases s with
    | prepare_complete k best =>
      have hkne : k ≠ h := by
        intro heq
        subst heq
        simp [List.countP_cons, is_prepare_step_for] at hcp
      have hcpr : rest.countP (is_prepare_step_for h) = 0 := by
        rw [List.countP_cons] at hcp
        simpa [is_prepare_step_for, hkne] using hcp
      have hccr : rest.countP (is_commit_step_for h) ≤ 1 := by
        rw [List.countP_cons] at hcc
        simpa [is_commit_step_for] using hcc
      rw [run_steps_cons_prep] at hrun
      obtain ⟨s2, hrest, hst2, hevs⟩ := run_map_eq hrun
      obtain ⟨hfind, htr⟩ := prep_step_other hkne best st
      have ihr := ih (on_prepare_complete k best st).1 s2.1 s2.2 p pf
        (by rw [hfind]; exact hf) hpf hcpr hccr hrest
      rw [hevs, pbft_trace_append, htr]
      simpa using ihr
    | commit_complete k best =>
      have hcpr : rest.countP (is_prepare_step_for h) = 0 := by
        rw [List.countP_cons] at hcp
        simpa [is_prepare_step_for] using hcp
      by_cases hk : k = h
      · subst hk
        have hbh : p.block_hash = k := find_pbft_eq_hash hf
        have hcc2 : on_commit_complete k best st =
            some ({ st with pbft_states := set_prepare_proof k none st.pbft_states },
                  [ValidatorNetworkEvent.PbftComplete p.block_hash p.proposal.message
                    { prepare := pf, commit := best }]) := by
          simp [on_commit_complete, ValidatorNetworkState.get_pbft_state, hf, hpf]
        have hstep : is_commit_step_for k (AggregationStep.commit_complete k best) = true := by
          simp [is_commit_step_for]
        have hccr : rest.countP (is_commit_step_for k) = 0 := by
          rw [List.countP_cons, hstep] at hcc
          simp only [if_pos rfl, ite_true] at hcc
          omega
        rw [run_steps_cons_com_some rest hcc2] at hrun
        obtain ⟨s2, hrest, hst2, hevs⟩ := run_map_eq hrun
        have hnp2 : ∀ q, find_pbft (set_prepare_proof k none st.pbft_states) k = some q →
            q.prepare_proof = none := by
          intro q hq
          rw [find_set_eq] at hq
          rw [hf] at hq
          have := Option.some.inj hq
          rw [← this]
        have hz := run_no_prep_no_proof k rest
          { st with pbft_states := set_prepare_proof k none st.pbft_states }
          s2.1 s2.2 hcpr hnp2 hrest
        refine Or.inr ⟨p.proposal.message, { prepare := pf, commit := best }, ?_⟩
        rw [hevs, pbft_trace_append, hz.1]
        simp [pbft_trace, is_pbft_event_for, hbh]
      · have hccr : rest.countP (is_commit_step_for h) ≤ 1 := by
          rw [List.countP_cons] at hcc
          simpa [is_commit_step_for, hk] using hcc
        cases hcc3 : on_commit_complete k best st with
        | none =>
          rw [run_steps_cons_com_none rest hcc3] at hrun
          cases hrun
        | some r =>
          rw [run_steps_cons_com_some rest hcc3] at hrun
          obtain ⟨s2, hrest, hst2, hevs⟩ := run_map_eq hrun
          obtain ⟨hfind, htr⟩ := com_step_other hk best st r hcc3
          have ihr := ih r.1 s2.1 s2.2 p pf (by rw [hfind]; exact hf) hpf hcpr hccr hrest
          rw [hevs, pbft_trace_append, htr]
          simpa using ihr

/-- C3: over any sequence of aggregation completion firings in which the
prepare aggregation registered for hash `h` completes at most once and
the commit aggregation for `h` completes at most once (a Handel
sub-aggregation emits its completion event once), starting from a state
whose `h`-instance has no stored prepare proof (instances are created
with `prepare_proof = None`), a panic-free run emits for `h` either no
completion event, or exactly one `PbftPrepareComplete`, or exactly one
`PbftPrepareComplete` followed strictly later by exactly one
`PbftComplete`: `PbftPrepareComplete(h)` and `PbftComplete(h)` are each
emitted at most once, and `PbftComplete` only strictly after the
corresponding `PbftPrepareComplete`. -/
theorem c3_prepare_commit_once (h : Blake2bHash) :
    ∀ (steps : List AggregationStep) (st st2 : ValidatorNetworkState)
      (evs : List ValidatorNetworkEvent),
      (∀ p, find_pbft st.pbft_states h = some p → p.prepare_proof = none) →
      steps.countP (is_prepare_step_for h) ≤ 1 →
      steps.countP (is_commit_step_for h) ≤ 1 →
      run_steps st steps = some (st2, evs) →
      pbft_trace h evs = []
      ∨ (∃ prop, pbft_trace h evs = [ValidatorNetworkEvent.PbftPrepareComplete h prop])
      ∨ (∃ prop prop2 proof2, pbft_trace h evs =
          [ValidatorNetworkEvent.PbftPrepareComplete h prop,
           ValidatorNetworkEvent.PbftComplete h prop2 proof2]) := by
  intro steps
  induction steps with
  | nil =>
    intro st st2 evs hinit hcp hcc hrun
    simp only [run_steps] at hrun
    have he := Option.some.inj hrun
    obtain rfl : ([] : List ValidatorNetworkEvent) = evs := congrArg Prod.snd he
    exact Or.inl rfl
  | cons s rest ih =>
    intro st st2 evs hinit hcp hcc hrun
    cases s with
    | prepare_complete k best =>
      by_cases hk : k = h
      · subst hk
        have hstep : is_prepare_step_for k (AggregationStep.prepare_complete k best) = true := by
          simp [is_prepare_step_for]
        have hpr : rest.countP (is_prepare_step_for k) = 0 := by
          rw [List.countP_cons, hstep] at hcp
          simp only [if_pos rfl, ite_true] at hcp
          omega
        have hccr : rest.countP (is_commit_step_for k) ≤ 1 := by
          rw [List.countP_cons] at hcc
          simpa [is_commit_step_for] using hcc
        cases hf : find_pbft st.pbft_states k with
        | none =>
          have hval : on_prepare_complete k best st = (st, []) := by
            simp [on_prepare_complete, ValidatorNetworkState.get_pbft_state, hf]
          rw [run_steps_cons_prep, hval] at hrun
          obtain ⟨s2, hrest, hst2, hevs⟩ := run_map_eq hrun
          have hz := run_no_prep_no_proof k rest st s2.1 s2.2 hpr hinit hrest
          refine Or.inl ?_
          rw [hevs, pbft_trace_append, hz.1]
          rfl
        | some p =>
          have hpf := hinit p hf
          have hbh : p.block_hash = k := find_pbft_eq_hash hf
          have hval : on_prepare_complete k best st =
              ({ st with pbft_states := set_prepare_proof k (some best) st.pbft_states },
               [ValidatorNetworkEvent.PbftPrepareComplete p.block_hash p.proposal.message]) := by
            simp [on_prepare_complete, ValidatorNetworkState.get_pbft_state, hf, hpf]
          rw [run_steps_cons_prep, hval] at hrun
          obtain ⟨s2, hrest, hst2, hevs⟩ := run_map_eq hrun
          have hrest2 : run_steps
              { st with pbft_states := set_prepare_proof k (some best) st.pbft_states } rest
              = some s2 := hrest
          have hfind : find_pbft (set_prepare_proof k (some best) st.pbft_states) k =
              some { p with prepare_proof := some best } := by
            rw [find_set_eq, hf]
            rfl
          have hres := run_with_proof k rest
            { st with pbft_states := set_prepare_proof k (some best) st.pbft_states }
            s2.1 s2.2 { p with prepare_proof := some best } best hfind rfl hpr hccr hrest2
          have htr1 : pbft_trace k
              [ValidatorNetworkEvent.PbftPrepareComplete p.block_hash p.proposal.message] =
              [ValidatorNetworkEvent.PbftPrepareComplete k p.proposal.message] := by
            simp [pbft_trace, is_pbft_event_for, hbh]
          rw [hevs, pbft_trace_append, htr1]
          rcases hres with htr2 | ⟨prop, proof2, htr2⟩
          · exact Or.inr (Or.inl ⟨p.proposal.message, by rw [htr2]; simp⟩)
          · exact Or.inr (Or.inr ⟨p.proposal.message, prop, proof2, by rw [htr2]; simp⟩)
      · have hpr : rest.countP (is_prepare_step_for h) ≤ 1 := by
          rw [List.countP_cons] at hcp
          simpa [is_prepare_step_for, hk] using hcp
        have hccr : rest.countP (is_commit_step_for h) ≤ 1 := by
          rw [List.countP_cons] at hcc
          simpa [is_commit_step_for] using hcc
        rw [run_steps_cons_prep] at hrun
        obtain ⟨s2, hrest, hst2, hevs⟩ := run_map_eq hrun
        obtain ⟨hfind, htr⟩ := prep_step_other hk best st
        have ihr := ih (on_prepare_complete k best st).1 s2.1 s2.2
          (by rw [hfind]; exact hinit) hpr hccr hrest
        rw [hevs, pbft_trace_append, htr]
        simpa using ihr
    | commit_complete k best =>
      have hpr : rest.countP (is_prepare_step_for h) ≤ 1 := by
        rw [List.countP_cons] at hcp
        simpa [is_prepare_step_for] using hcp
      by_cases hk : k = h
      · subst hk
        cases hf : find_pbft st.pbft_states k with
        | some p =>
          have hpf := hinit p hf
          have hcc2 := com_step_panics best (show st.get_pbft_state k = some p from hf) hpf
          rw [run_steps_cons_com_none rest hcc2] at hrun
          cases hrun
        | none =>
          have hval : on_commit_complete k best st = some (st, []) := by
            simp [on_commit_complete, ValidatorNetworkState.get_pbft_state, hf]
          have hstep : is_commit_step_for k (AggregationStep.commit_complete k best) = true := by
            simp [is_commit_step_for]
          have hccr : rest.countP (is_commit_step_for k) ≤ 1 := by
            rw [List.countP_cons, hstep] at hcc
            simp only [if_pos rfl, ite_true] at hcc
            omega
          rw [run_steps_cons_com_some rest hval] at hrun
          obtain ⟨s2, hrest, hst2, hevs⟩ := run_map_eq hrun
          have ihr := ih st s2.1 s2.2 hinit hpr hccr hrest
          rw [hevs, pbft_trace_append]
          simpa [pbft_trace] using ihr
      · have hccr : rest.countP (is_commit_step_for h) ≤ 1 := by
          rw [List.countP_cons] at hcc
          simpa [is_commit_step_for, hk] using hcc
        cases hcc3 : on_commit_complete k best st with
        | none =>
          rw [run_steps_cons_com_none rest hcc3] at hrun
          cases hrun
        | some r =>
          rw [run_steps_cons_com_some rest hcc3] at hrun
          obtain ⟨s2, hrest, hst2, hevs⟩ := run_map_eq hrun
          obtain ⟨hfind, htr⟩ := com_step_other hk best st r hcc3
          have ihr := ih r.1 s2.1 s2.2 (by rw [hfind]; exact hinit) hpr hccr hrest
          rw [hevs, pbft_trace_append, htr]
          simpa using ihr

/-- Witness for C3: the instance of `c9_state` receives one prepare
completion and one commit completion; the trace is exactly
`[PbftPrepareComplete, PbftComplete]`. -/
theorem c3_prepare_commit_once_witness :
    pbft_trace w_hash
        ((run_steps c9_state
          [AggregationStep.prepare_complete w_hash ⟨1, [0, 1]⟩,
           AggregationStep.commit_complete w_hash ⟨2, [0, 1]⟩]).getD (c9_state, [])).2 = []
    ∨ (∃ prop, pbft_trace w_hash
        ((run_steps c9_state
          [AggregationStep.prepare_complete w_hash ⟨1, [0, 1]⟩,
           AggregationStep.commit_complete w_hash ⟨2, [0, 1]⟩]).getD (c9_state, [])).2 =
        [ValidatorNetworkEvent.PbftPrepareComplete w_hash prop])
    ∨ (∃ prop prop2 proof2, pbft_trace w_hash
        ((run_steps c9_state
          [AggregationStep.prepare_complete w_hash ⟨1, [0, 1]⟩,
           AggregationStep.commit_complete w_hash ⟨2, [0, 1]⟩]).getD (c9_state, [])).2 =
        [ValidatorNetworkEvent.PbftPrepareComplete w_hash prop,
         ValidatorNetworkEvent.PbftComplete w_hash prop2 proof2]) :=
  c3_prepare_commit_once w_hash
    [AggregationStep.prepare_complete w_hash ⟨1, [0, 1]⟩,
     AggregationStep.commit_complete w_hash ⟨2, [0, 1]⟩]
    c9_state
    ((run_steps c9_state
      [AggregationStep.prepare_complete w_hash ⟨1, [0, 1]⟩,
       AggregationStep.commit_complete w_hash ⟨2, [0, 1]⟩]).getD (c9_state, [])).1
    ((run_steps c9_state
      [AggregationStep.prepare_complete w_hash ⟨1, [0, 1]⟩,
       AggregationStep.commit_complete w_hash ⟨2, [0, 1]⟩]).getD (c9_state, [])).2
    (by decide) (by decide) (by decide) (by decide)
